import Mathlib

/-!
Shallow embedding of the rules-based reimbursement engine
(`rules_engine.py`) and its continuous-improvement loop
(`continuous_improvement.py`).

Numbers: Python floats are modelled as exact rationals (`ℚ`); `round(x, 2)`
is modelled as round-half-to-even at two decimal places, which is the
rounding Python applies to the value of a float.  Python dicts are
modelled as association lists with overwrite-on-insert semantics, which
preserves Python's insertion order.

The arithmetic helpers below (`qscale100`, `qsub`, `qmax`) are written on
the numerator/denominator representation so that every definition in the
development evaluates inside the kernel; each is proved equal to the
corresponding field operation on `ℚ`.
-/

/-- Multiplication of a rational by 100, computed on the representation.
`qscale100_eq` identifies it with `q * 100`. -/
def qscale100 (q : ℚ) : ℚ := mkRat (q.num * 100) q.den

theorem qscale100_eq (q : ℚ) : qscale100 q = q * 100 := by
  rw [qscale100, Rat.mkRat_eq_div]
  rw [div_eq_iff (by exact_mod_cast q.den_nz)]
  push_cast
  have h : (q * (q.den : ℚ)) = (q.num : ℚ) := by
    have hd : ((q.den : ℚ)) ≠ 0 := by exact_mod_cast q.den_nz
    calc q * (q.den : ℚ) = (q.num : ℚ) / (q.den : ℚ) * (q.den : ℚ) := by
          rw [Rat.num_div_den]
      _ = (q.num : ℚ) := div_mul_cancel₀ _ hd
  calc (q.num : ℚ) * 100 = q * (q.den : ℚ) * 100 := by rw [h]
    _ = q * 100 * (q.den : ℚ) := by ring

/-- Subtraction of rationals, computed on the representation.
`qsub_eq` identifies it with `a - b`. -/
def qsub (a b : ℚ) : ℚ := mkRat (a.num * b.den - b.num * a.den) (a.den * b.den)

theorem qsub_eq (a b : ℚ) : qsub a b = a - b := by
  rw [qsub, Rat.mkRat_eq_div]
  have hda : ((a.den : ℚ)) ≠ 0 := by exact_mod_cast a.den_nz
  have hdb : ((b.den : ℚ)) ≠ 0 := by exact_mod_cast b.den_nz
  rw [div_eq_iff (by positivity)]
  push_cast
  have ha : ((a.num : ℚ)) = a * (a.den : ℚ) := by
    calc (a.num : ℚ) = (a.num : ℚ) / (a.den : ℚ) * (a.den : ℚ) :=
          (div_mul_cancel₀ _ hda).symm
      _ = a * (a.den : ℚ) := by rw [Rat.num_div_den]
  have hb : ((b.num : ℚ)) = b * (b.den : ℚ) := by
    calc (b.num : ℚ) = (b.num : ℚ) / (b.den : ℚ) * (b.den : ℚ) :=
          (div_mul_cancel₀ _ hdb).symm
      _ = b * (b.den : ℚ) := by rw [Rat.num_div_den]
  rw [ha, hb]
  ring

/-- Maximum of two rationals via the executable `<` on `ℚ`.
`qmax_eq` identifies it with `max`. -/
def qmax (a b : ℚ) : ℚ := if a < b then b else a

theorem qmax_eq (a b : ℚ) : qmax a b = max a b := by
  unfold qmax
  by_cases h : a < b
  · simp [h, max_eq_right (le_of_lt h)]
  · simp [h, max_eq_left (le_of_not_lt h)]

namespace RulesEngine

/-- Round-half-to-even of a rational to the nearest integer, the rounding
mode used by Python `round`, computed on the numerator/denominator
representation.  `roundHalfEven_spec` restates it through `Int.floor`. -/
def roundHalfEven (q : ℚ) : ℤ :=
  if 2 * (q.num - Int.fdiv q.num (q.den : ℤ) * (q.den : ℤ)) < (q.den : ℤ) then
    Int.fdiv q.num (q.den : ℤ)
  else if (q.den : ℤ) < 2 * (q.num - Int.fdiv q.num (q.den : ℤ) * (q.den : ℤ)) then
    Int.fdiv q.num (q.den : ℤ) + 1
  else if Int.fdiv q.num (q.den : ℤ) % 2 = 0 then Int.fdiv q.num (q.den : ℤ)
  else Int.fdiv q.num (q.den : ℤ) + 1

/-- `round(x, 2)` from Python: round to two decimal places, ties to even. -/
def round2 (q : ℚ) : ℚ := mkRat (roundHalfEven (qscale100 q)) 100

/-- A canonical store key, as produced by `RulesEngine._make_key`:
`(trip_duration_days, round(miles_traveled, 2), round(total_receipts_amount, 2))`. -/
abbrev Key := ℤ × ℚ × ℚ

/-- The in-memory rule store `self.rules`: a Python dict from key tuples to
amounts, modelled as an insertion-ordered association list with unique keys. -/
abbrev Store := List (Key × ℚ)

/-- Python dict lookup `d.get(k, default)` without the default: first (unique)
binding of the key, if any. -/
def storeGet : Store → Key → Option ℚ
  | [], _ => none
  | (k0, v) :: rest, k => if k0 = k then some v else storeGet rest k

/-- Python dict assignment `d[k] = v`: overwrite the existing binding in place
if present, otherwise append at the end. -/
def storeInsert : Store → Key → ℚ → Store
  | [], k, v => [(k, v)]
  | (k0, v0) :: rest, k, v =>
    if k0 = k then (k, v) :: rest else (k0, v0) :: storeInsert rest k v

/-- `RulesEngine._make_key` (rules_engine.py lines 17-19). -/
def make_key (trip_duration_days : ℤ) (miles_traveled : ℚ)
    (total_receipts_amount : ℚ) : Key :=
  (trip_duration_days, round2 miles_traveled, round2 total_receipts_amount)

/-- `RulesEngine.add_rule` (rules_engine.py lines 57-60). -/
def add_rule (s : Store) (trip_duration_days : ℤ) (miles_traveled : ℚ)
    (total_receipts_amount : ℚ) (output : ℚ) : Store :=
  storeInsert s (make_key trip_duration_days miles_traveled total_receipts_amount) output

/-- `RulesEngine.predict` (rules_engine.py lines 62-65):
`self.rules.get(key, 0.0)`. -/
def predict (s : Store) (trip_duration_days : ℤ) (miles_traveled : ℚ)
    (total_receipts_amount : ℚ) : ℚ :=
  (storeGet s (make_key trip_duration_days miles_traveled total_receipts_amount)).getD 0

/-- `RulesEngine.get_rule_count` (rules_engine.py lines 67-69). -/
def get_rule_count (s : Store) : ℕ := s.length

/-- `RulesEngine.get_zero_count` (rules_engine.py lines 71-73): number of
stored amounts equal to 0.0. -/
def get_zero_count (s : Store) : ℕ := s.countP (fun kv => kv.2 = 0)

/-- One case of the private-cases manifest: `trip_duration_days`,
`miles_traveled`, `total_receipts_amount`. -/
structure Case where
  days : ℤ
  miles : ℚ
  receipts : ℚ
deriving DecidableEq, Repr

/-- `RulesEngine.initialize_from_private_cases` (rules_engine.py lines 75-94),
restricted to its effect on the in-memory store: for every case of the
manifest, `add_rule(days, miles, receipts, 0.0)`, unconditionally. -/
def initialize_from_private_cases (s : Store) (cases : List Case) : Store :=
  cases.foldl (fun st c => add_rule st c.days c.miles c.receipts 0) s

end RulesEngine

/-! ### String helpers

These model the Python string operations used by the source: `str.strip`,
`str.startswith`, the `in` containment test, `str.split`, and the specific
`re` patterns appearing in `continuous_improvement.py` and the tuple
literals consumed by `eval` in `rules_engine.py`.  Each `re.search` is
modelled by a scanner that tries the pattern at every start position from
the left, with greedy character-class runs (equivalent to backtracking for
these patterns, since every `+`-class is followed by a character outside
the class). -/

/-- Python whitespace for `str.strip` and `\s`. -/
def isSpaceChar (c : Char) : Bool :=
  c = ' ' || c = '\t' || c = '\n' || c = '\r' || c = '\x0b' || c = '\x0c'

/-- The character class `[\d.]`. -/
def isNumChar (c : Char) : Bool := c.isDigit || c = '.'

/-- Python `str.strip()`. -/
def stripList (l : List Char) : List Char :=
  ((l.dropWhile isSpaceChar).reverse.dropWhile isSpaceChar).reverse

/-- Match `pat` as a literal at the head of `s`; return the remainder. -/
def litMatch : List Char → List Char → Option (List Char)
  | [], s => some s
  | _ :: _, [] => none
  | p :: ps, c :: cs => if p = c then litMatch ps cs else none

/-- Python `str.startswith`. -/
def startsWithPat (pat s : List Char) : Bool := (litMatch pat s).isSome

/-- Python substring containment `pat in s`. -/
def containsSub (pat : List Char) : List Char → Bool
  | [] => (litMatch pat []).isSome
  | c :: cs => (litMatch pat (c :: cs)).isSome || containsSub pat cs

/-- Python `s.split('\n')`. -/
def splitLines : List Char → List (List Char)
  | [] => [[]]
  | c :: cs =>
    if c = '\n' then [] :: splitLines cs
    else
      match splitLines cs with
      | [] => [[c]]
      | l :: ls => (c :: l) :: ls

/-- Value of a digit string (`int` on a `\d+` group). -/
def digitsToNat (l : List Char) : ℕ :=
  l.foldl (fun n c => 10 * n + (c.toNat - 48)) 0

/-- Python `float()` applied to a token matched by `[\d.]+`: an optional
integer part, an optional dot, an optional fraction part, at least one
digit in total; `none` models `ValueError`. -/
def parseDecimal (tok : List Char) : Option ℚ :=
  let ip := tok.takeWhile Char.isDigit
  match tok.dropWhile Char.isDigit with
  | [] => if ip.isEmpty then none else some ((digitsToNat ip : ℤ) : ℚ)
  | '.' :: frac =>
    if frac.all Char.isDigit then
      if ip.isEmpty && frac.isEmpty then none
      else some (mkRat ((digitsToNat ip * 10 ^ frac.length + digitsToNat frac : ℕ) : ℤ)
        (10 ^ frac.length))
    else none
  | _ => none

namespace ContinuousImprovement

/-- The pattern `Case (\d+): (\d+) days, ([\d.]+) miles, \$([\d.]+) receipts`
matched at the start of `s` (case number, days, miles, receipts).  A group
whose `float` conversion would raise in Python is treated as a non-match
here; in the source such a `ValueError` would abort the whole evaluation
(caught in `run_evaluation`), a corner no claim depends on. -/
def tryCase (s : List Char) : Option (ℕ × ℕ × ℚ × ℚ) :=
  match litMatch "Case ".data s with
  | none => none
  | some s1 =>
    let g1 := s1.takeWhile Char.isDigit
    if g1.isEmpty then none else
    match litMatch ": ".data (s1.dropWhile Char.isDigit) with
    | none => none
    | some s2 =>
      let g2 := s2.takeWhile Char.isDigit
      if g2.isEmpty then none else
      match litMatch " days, ".data (s2.dropWhile Char.isDigit) with
      | none => none
      | some s3 =>
        let g3 := s3.takeWhile isNumChar
        if g3.isEmpty then none else
        match litMatch " miles, $".data (s3.dropWhile isNumChar) with
        | none => none
        | some s4 =>
          let g4 := s4.takeWhile isNumChar
          if g4.isEmpty then none else
          match litMatch " receipts".data (s4.dropWhile isNumChar) with
          | none => none
          | some _ =>
            match parseDecimal g3, parseDecimal g4 with
            | some m, some r => some (digitsToNat g1, digitsToNat g2, m, r)
            | _, _ => none

/-- `re.search` for the case-line pattern: try every start position. -/
def searchCase : List Char → Option (ℕ × ℕ × ℚ × ℚ)
  | [] => none
  | c :: cs =>
    match tryCase (c :: cs) with
    | some r => some r
    | none => searchCase cs

/-- The pattern `Expected: \$([\d.]+), Got: \$([\d.]+), Error: \$([\d.]+)`
matched at the start of `s` (expected, actual, error magnitude). -/
def tryValues (s : List Char) : Option (ℚ × ℚ × ℚ) :=
  match litMatch "Expected: $".data s with
  | none => none
  | some s1 =>
    let g1 := s1.takeWhile isNumChar
    if g1.isEmpty then none else
    match litMatch ", Got: $".data (s1.dropWhile isNumChar) with
    | none => none
    | some s2 =>
      let g2 := s2.takeWhile isNumChar
      if g2.isEmpty then none else
      match litMatch ", Error: $".data (s2.dropWhile isNumChar) with
      | none => none
      | some s3 =>
        let g3 := s3.takeWhile isNumChar
        if g3.isEmpty then none else
        match parseDecimal g1, parseDecimal g2, parseDecimal g3 with
        | some e, some a, some m => some (e, a, m)
        | _, _, _ => none

/-- `re.search` for the expected/actual/error pattern. -/
def searchValues : List Char → Option (ℚ × ℚ × ℚ)
  | [] => none
  | c :: cs =>
    match tryValues (c :: cs) with
    | some r => some r
    | none => searchValues cs

/-- The tail `(\d+)\s*\(([\d.]+)%\)` of the exact-match pattern, matched at
the start of `s`; returns the percentage group. -/
def tryExactTail (s : List Char) : Option ℚ :=
  let g1 := s.takeWhile Char.isDigit
  if g1.isEmpty then none else
  match (s.dropWhile Char.isDigit).dropWhile isSpaceChar with
  | '(' :: s2 =>
    let g2 := s2.takeWhile isNumChar
    if g2.isEmpty then none else
    match s2.dropWhile isNumChar with
    | '%' :: ')' :: _ => parseDecimal g2
    | _ => none
  | _ => none

/-- The lazy `.*?` of the exact-match pattern: try the tail after consuming
0, 1, 2, … non-newline characters, shortest extension first. -/
def lazyExact : List Char → Option ℚ
  | [] => none
  | c :: cs =>
    match tryExactTail (c :: cs) with
    | some r => some r
    | none => if c = '\n' then none else lazyExact cs

/-- The pattern `Exact matches.*?(\d+)\s*\(([\d.]+)%\)` matched at the start
of `s`; returns the percentage (second group). -/
def tryExact (s : List Char) : Option ℚ :=
  match litMatch "Exact matches".data s with
  | none => none
  | some rest => lazyExact rest

/-- `re.search` for the exact-match pattern. -/
def searchExact : List Char → Option ℚ
  | [] => none
  | c :: cs =>
    match tryExact (c :: cs) with
    | some r => some r
    | none => searchExact cs

/-- The pattern `Average error: \$([\d.]+)` matched at the start of `s`. -/
def tryAvg (s : List Char) : Option ℚ :=
  match litMatch "Average error: $".data s with
  | none => none
  | some rest =>
    let g := rest.takeWhile isNumChar
    if g.isEmpty then none else parseDecimal g

/-- `re.search` for the average-error pattern. -/
def searchAvg : List Char → Option ℚ
  | [] => none
  | c :: cs =>
    match tryAvg (c :: cs) with
    | some r => some r
    | none => searchAvg cs

/-- One parsed error case (continuous_improvement.py lines 115-125):
`input` triple, `expected_output`, `actual_output`, `error_magnitude`,
`case_number`. -/
structure ErrorCase where
  case_number : ℕ
  days : ℕ
  miles : ℚ
  receipts : ℚ
  expected : ℚ
  actual : ℚ
  magnitude : ℚ
deriving DecidableEq, Repr

/-- The line loop of `extract_errors_from_eval_output`
(continuous_improvement.py lines 79-128): a state machine over the report
lines with the in-section flag, the pending `current_case`, and the
accumulated errors.  Mirrors the Python control flow branch for branch,
including: a `Case`-starting line whose regex does not match leaves the
pending case unchanged, and an emitted record resets `current_case` to
`None`. -/
def extractLoop : List (List Char) → Bool → Option (ℕ × ℕ × ℚ × ℚ) →
    List ErrorCase → List ErrorCase
  | [], _, _, acc => acc
  | line :: rest, inSec, pending, acc =>
    if containsSub "Check these high-error cases:".data line then
      extractLoop rest true pending acc
    else if inSec && (startsWithPat "⚠️".data (stripList line) ||
        startsWithPat "📝".data (stripList line)) then
      acc
    else if inSec && startsWithPat "Case".data (stripList line) then
      match searchCase line with
      | some hdr => extractLoop rest inSec (some hdr) acc
      | none => extractLoop rest inSec pending acc
    else if inSec && containsSub "Expected:".data line &&
        containsSub "Got:".data line && pending.isSome then
      match pending, searchValues line with
      | some hdr, some eam =>
        extractLoop rest inSec none
          (acc ++ [⟨hdr.1, hdr.2.1, hdr.2.2.1, hdr.2.2.2, eam.1, eam.2.1, eam.2.2⟩])
      | p, _ => extractLoop rest inSec p acc
    else extractLoop rest inSec pending acc

/-- Weight of the pending `current_case`: 1 if a case line is awaiting its
metrics line, else 0 — the one extra record the pending case could still
contribute. -/
def pendingWeight : Option (ℕ × ℕ × ℚ × ℚ) → ℕ
  | none => 0
  | some _ => 1

/-- Stable insertion for the descending-by-magnitude sort: `x` is placed
before the first element whose magnitude is at most `x`'s.  Equal
magnitudes therefore keep their original relative order, exactly as
Python's stable `list.sort(..., reverse=True)`. -/
def insertDesc (x : ErrorCase) : List ErrorCase → List ErrorCase
  | [] => [x]
  | y :: ys => if x.magnitude < y.magnitude then y :: insertDesc x ys else x :: y :: ys

/-- Stable sort, descending by `error_magnitude`
(continuous_improvement.py line 133). -/
def sortDesc : List ErrorCase → List ErrorCase
  | [] => []
  | x :: xs => insertDesc x (sortDesc xs)

/-- `errors.sort(key=..., reverse=True); errors[:n]`
(continuous_improvement.py lines 133-134). -/
def top_n (records : List ErrorCase) (n : ℕ) : List ErrorCase :=
  (sortDesc records).take n

/-- `extract_errors_from_eval_output`
(continuous_improvement.py lines 74-134). -/
def extract_errors_from_eval_output (out : String) (top_n_errors : ℕ) :
    List ErrorCase :=
  top_n (extractLoop (splitLines out.data) false none []) top_n_errors

/-- `extract_score_from_output` (continuous_improvement.py lines 136-150):
exact-match percentage first, else `max(0, 100 - average_error)`, else 0. -/
def extract_score_from_output (out : String) : ℚ :=
  match searchExact out.data with
  | some p => p
  | none =>
    match searchAvg out.data with
    | some e => qmax 0 (qsub 100 e)
    | none => 0

end ContinuousImprovement

namespace RulesEngine

/-- Python `eval` applied to a persisted key literal
(rules_engine.py line 31), modelled for parenthesised tuples of decimal
numeric literals of any arity — the forms `str(tuple)` produces for the
values in this system's range; `none` models an exception escaping `eval`. -/
def takeSignedNum : List Char → Option (ℚ × List Char)
  | '-' :: s =>
    match parseDecimal (s.takeWhile isNumChar) with
    | some q => some (-q, s.dropWhile isNumChar)
    | none => none
  | s =>
    match parseDecimal (s.takeWhile isNumChar) with
    | some q => some (q, s.dropWhile isNumChar)
    | none => none

def evalItems : ℕ → List Char → Option (List ℚ)
  | 0, _ => none
  | fuel+1, s =>
    match takeSignedNum (s.dropWhile isSpaceChar) with
    | none => none
    | some (q, rest0) =>
      match rest0.dropWhile isSpaceChar with
      | ')' :: tail => if (tail.dropWhile isSpaceChar).isEmpty then some [q] else none
      | ',' :: tail => (evalItems fuel tail).map (fun l => q :: l)
      | _ => none

/-- `eval(key_str)` for a tuple literal: strip, expect `(`, then items. -/
def evalKey (s : String) : Option (List ℚ) :=
  match s.data.dropWhile isSpaceChar with
  | '(' :: rest => evalItems (rest.length + 1) rest
  | _ => none

/-- The store as rebuilt by `load_rules`: keyed by whatever tuple `eval`
produced (any arity). -/
abbrev LoadStore := List (List ℚ × ℚ)

/-- Dict assignment for the load loop. -/
def loadInsert : LoadStore → List ℚ → ℚ → LoadStore
  | [], k, v => [(k, v)]
  | (k0, v0) :: rest, k, v =>
    if k0 = k then (k, v) :: rest else (k0, v0) :: loadInsert rest k v

/-- The record loop of `load_rules` (rules_engine.py lines 28-32) together
with the surrounding `except` (lines 35-38): an exception anywhere while
converting keys resets the whole mapping to empty. -/
def load_loop : List (String × ℚ) → LoadStore → LoadStore
  | [], acc => acc
  | (k, v) :: rest, acc =>
    match evalKey k with
    | none => []
    | some kt => load_loop rest (loadInsert acc kt v)

/-- The state of the rules file as `load_rules` finds it. -/
inductive RulesFile
  | missing
  | corrupt
  | parsed (entries : List (String × ℚ))

/-- `load_rules` (rules_engine.py lines 21-42): missing file → empty store;
unreadable/corrupt JSON → exception caught → empty store; otherwise run the
conversion loop (which itself empties the store on a bad key). -/
def load_rules : RulesFile → LoadStore
  | .missing => []
  | .corrupt => []
  | .parsed entries => load_loop entries []

/-- File-system events a process can issue against the store file. -/
inductive FsEvent
  | fopenTrunc (path : String)
  | fwrite (path : String) (data : String)
  | fclose (path : String)
  | frename (src tgt : String)
deriving DecidableEq, Repr

/-- A flat file system: association of path to content. -/
abbrev FileSys := List (String × String)

def fsGet : FileSys → String → Option String
  | [], _ => none
  | (p, c) :: rest, q => if p = q then some c else fsGet rest q

def fsSet : FileSys → String → String → FileSys
  | [], p, c => [(p, c)]
  | (p0, c0) :: rest, p, c =>
    if p0 = p then (p, c) :: rest else (p0, c0) :: fsSet rest p c

def fsRemove : FileSys → String → FileSys
  | [], _ => []
  | (p0, c0) :: rest, p =>
    if p0 = p then rest else (p0, c0) :: fsRemove rest p

def applyEvent (fs : FileSys) : FsEvent → FileSys
  | .fopenTrunc p => fsSet fs p ""
  | .fwrite p d => fsSet fs p ((fsGet fs p).getD "" ++ d)
  | .fclose _ => fs
  | .frename src tgt => fsSet (fsRemove fs src) tgt ((fsGet fs src).getD "")

def applyEvents (fs : FileSys) (evs : List FsEvent) : FileSys :=
  evs.foldl applyEvent fs

/-- The file-system trace of `save_rules` (rules_engine.py lines 44-55):
`open(self.rules_file, 'w')` truncates the target in place, `json.dump`
writes the serialization, the `with` block closes the handle.  No temporary
path and no rename appear. -/
def save_rules_events (rules_file : String) (serialized : String) : List FsEvent :=
  [.fopenTrunc rules_file, .fwrite rules_file serialized, .fclose rules_file]

/-- Is the event a rename onto `tgt`? -/
def isRenameTo (tgt : String) : FsEvent → Bool
  | .frename _ t => t = tgt
  | _ => false

/-- Is the event a rename at all? -/
def isRename : FsEvent → Bool
  | .frename _ _ => true
  | _ => false

end RulesEngine

namespace ContinuousImprovement

open RulesEngine

/-- Outcome of invoking `bash eval.sh` through `subprocess.run`
(continuous_improvement.py lines 39-49, 70-72). -/
inductive HarnessResult
  | exitFail (code : ℤ)
  | excFail
  | ok (stdout : String)

/-- `run_evaluation` (continuous_improvement.py lines 33-72): non-zero exit
or a raised exception yield `(0.0, [])`; success parses errors and score
from stdout. -/
def run_evaluation (top_n_errors : ℕ) : HarnessResult → ℚ × List ErrorCase
  | .exitFail _ => (0, [])
  | .excFail => (0, [])
  | .ok out =>
    (extract_score_from_output out, extract_errors_from_eval_output out top_n_errors)

/-- `RulesEngine.update_rules_from_errors` (rules_engine.py lines 96-113)
restricted to the in-memory store: `add_rule` per error case with the raw
input and the expected output. -/
def update_rules_from_errors_engine (s : Store) (errors : List ErrorCase) : Store :=
  errors.foldl (fun st e => add_rule st (e.days : ℤ) e.miles e.receipts e.expected) s

/-- `ContinuousImprovement.update_rules_from_errors`
(continuous_improvement.py lines 152-162): with no errors it returns before
touching the engine, so neither the in-memory store nor the file changes;
otherwise the engine updates and saves.  The boolean records whether
`save_rules` ran. -/
def ci_update_rules (s : Store) (errors : List ErrorCase) : Store × Bool :=
  if errors.isEmpty then (s, false)
  else (update_rules_from_errors_engine s errors, true)

/-- Terminal states of the improvement loop. -/
inductive LoopOutcome
  | converged
  | stagnated
  | exhausted
deriving DecidableEq, Repr

/-- The `for iteration in range(max_iterations)` loop of
`run_continuous_improvement` (continuous_improvement.py lines 194-219),
with the harness abstracted as a function from the 0-based iteration index
to its result.  Arguments: remaining iterations, `best_score`,
`iterations_without_improvement`, iterations already run, store.  Returns
the terminal state, the total number of iterations executed, and the final
store. -/
def run_continuous_improvement_loop (target_score : ℚ) (max_stagnant : ℕ)
    (topn : ℕ) (hs : ℕ → HarnessResult) :
    ℕ → ℚ → ℕ → ℕ → Store → LoopOutcome × ℕ × Store
  | 0, _, _, done, s => (.exhausted, done, s)
  | fuel+1, best, stag, done, s =>
    let se := run_evaluation topn (hs done)
    let s1 := (ci_update_rules s se.2).1
    if target_score ≤ se.1 then (.converged, done + 1, s1)
    else
      let best1 := if best < se.1 then se.1 else best
      let stag1 := if best < se.1 then 0 else stag + 1
      if max_stagnant ≤ stag1 then (.stagnated, done + 1, s1)
      else run_continuous_improvement_loop target_score max_stagnant topn hs
        fuel best1 stag1 (done + 1) s1

end ContinuousImprovement

section RoundLemmas

open RulesEngine

/-- Sanity: `roundHalfEven` restated through `Int.floor`, the textbook form
of round-half-to-even. -/
theorem roundHalfEven_spec (q : ℚ) :
    roundHalfEven q =
      if q - (⌊q⌋ : ℚ) < 1/2 then ⌊q⌋
      else if (1:ℚ)/2 < q - (⌊q⌋ : ℚ) then ⌊q⌋ + 1
      else if ⌊q⌋ % 2 = 0 then ⌊q⌋ else ⌊q⌋ + 1 := by
  have hfd : Int.fdiv q.num (q.den : ℤ) = ⌊q⌋ := by
    rw [Int.fdiv_eq_ediv _ (by exact_mod_cast Nat.zero_le q.den)]
    exact (Rat.floor_def).symm
  have hdpos : (0:ℚ) < (q.den : ℚ) := by exact_mod_cast q.pos
  have hdne : ((q.den : ℚ)) ≠ 0 := ne_of_gt hdpos
  have hfrac : q - (⌊q⌋ : ℚ) = ((q.num - ⌊q⌋ * (q.den : ℤ) : ℤ) : ℚ) / (q.den : ℚ) := by
    push_cast
    rw [sub_div, Rat.num_div_den, mul_div_assoc, div_self hdne, mul_one]
  have hlt : (2 * (q.num - ⌊q⌋ * (q.den : ℤ)) < (q.den : ℤ)) ↔
      (q - (⌊q⌋ : ℚ) < 1/2) := by
    rw [hfrac, div_lt_div_iff hdpos (by norm_num)]
    constructor
    · intro h
      have h2 : ((2 * (q.num - ⌊q⌋ * (q.den : ℤ)) : ℤ) : ℚ) < ((q.den : ℤ) : ℚ) := by
        exact_mod_cast h
      push_cast at h2 ⊢
      linarith
    · intro h
      have h2 : ((2 * (q.num - ⌊q⌋ * (q.den : ℤ)) : ℤ) : ℚ) < ((q.den : ℤ) : ℚ) := by
        push_cast at h ⊢
        linarith
      exact_mod_cast h2
  have hgt : ((q.den : ℤ) < 2 * (q.num - ⌊q⌋ * (q.den : ℤ))) ↔
      ((1:ℚ)/2 < q - (⌊q⌋ : ℚ)) := by
    rw [hfrac, div_lt_div_iff (by norm_num) hdpos]
    constructor
    · intro h
      have h2 : (((q.den : ℤ)) : ℚ) < ((2 * (q.num - ⌊q⌋ * (q.den : ℤ)) : ℤ) : ℚ) := by
        exact_mod_cast h
      push_cast at h2 ⊢
      linarith
    · intro h
      have h2 : (((q.den : ℤ)) : ℚ) < ((2 * (q.num - ⌊q⌋ * (q.den : ℤ)) : ℤ) : ℚ) := by
        push_cast at h ⊢
        linarith
      exact_mod_cast h2
  unfold roundHalfEven
  simp only [hfd, hlt, hgt]

theorem roundHalfEven_intCast (k : ℤ) : roundHalfEven (k : ℚ) = k := by
  unfold roundHalfEven
  rw [Rat.num_intCast, Rat.den_intCast]
  have h1 : Int.fdiv k ((1:ℕ) : ℤ) = k := by
    rw [Int.fdiv_eq_ediv _ (by norm_num)]
    simp
  rw [h1]
  norm_num

theorem round2_round2 (q : ℚ) : round2 (round2 q) = round2 q := by
  unfold round2
  have h1 : qscale100 (mkRat (roundHalfEven (qscale100 q)) 100) =
      ((roundHalfEven (qscale100 q) : ℤ) : ℚ) := by
    rw [qscale100_eq, Rat.mkRat_eq_div]
    push_cast
    rw [div_mul_cancel₀ _ (show (100:ℚ) ≠ 0 by norm_num)]
  rw [h1, roundHalfEven_intCast]

end RoundLemmas

namespace RulesEngine

theorem storeGet_insert_self (s : Store) (k : Key) (v : ℚ) :
    storeGet (storeInsert s k v) k = some v := by
  induction s with
  | nil => simp [storeInsert, storeGet]
  | cons hd tl ih =>
    obtain ⟨k0, v0⟩ := hd
    by_cases h : k0 = k
    · simp [storeInsert, h, storeGet]
    · simp [storeInsert, h, storeGet, ih]

theorem storeGet_insert_ne (s : Store) (k k1 : Key) (v : ℚ) (h : k1 ≠ k) :
    storeGet (storeInsert s k v) k1 = storeGet s k1 := by
  have h2 : ¬ k = k1 := fun h0 => h h0.symm
  induction s with
  | nil => simp [storeInsert, storeGet, h2]
  | cons hd tl ih =>
    obtain ⟨k0, v0⟩ := hd
    by_cases hk : k0 = k
    · subst hk
      simp [storeInsert, storeGet, h2]
    · simp [storeInsert, hk, storeGet, ih]

end RulesEngine

/-- C1: after `add_rule(days, miles, receipts, amount)`, `predict` with the
same raw inputs returns `amount`; and on a store in which the normalized key
of the raw inputs was never upserted (absent from the mapping), `predict`
returns 0.0. -/
theorem C1_predict_after_upsert :
    (∀ (s : RulesEngine.Store) (d : ℤ) (m r a : ℚ),
      RulesEngine.predict (RulesEngine.add_rule s d m r a) d m r = a) ∧
    (∀ (s : RulesEngine.Store) (d : ℤ) (m r : ℚ),
      RulesEngine.storeGet s (RulesEngine.make_key d m r) = none →
      RulesEngine.predict s d m r = 0) := by
  constructor
  · intro s d m r a
    unfold RulesEngine.predict RulesEngine.add_rule
    rw [RulesEngine.storeGet_insert_self]
    rfl
  · intro s d m r h
    unfold RulesEngine.predict
    rw [h]
    rfl

/-- Witness for C1 at the scenario of §8 of the spec:
`upsert(3, 100.5, 45.0, 120.33)` then `predict(3, 100.5, 45.0) = 120.33`, and
`predict` on the empty store (key never upserted) at `(3, 100.51, 45.0)`
returns 0. -/
theorem C1_predict_after_upsert_witness :
    RulesEngine.predict
      (RulesEngine.add_rule [] 3 (201/2) 45 (12033/100)) 3 (201/2) 45 = 12033/100 ∧
    RulesEngine.predict [] 3 (10051/100) 45 = 0 := by
  refine ⟨C1_predict_after_upsert.1 [] 3 (201/2) 45 (12033/100), ?_⟩
  exact C1_predict_after_upsert.2 [] 3 (10051/100) 45 (by rfl)

namespace RulesEngine

theorem init_cons (s : Store) (c : Case) (cs : List Case) :
    initialize_from_private_cases s (c :: cs) =
    initialize_from_private_cases (add_rule s c.days c.miles c.receipts 0) cs := rfl

theorem storeGet_init_zero_preserved (cases : List Case) :
    ∀ (s : Store) (k : Key), storeGet s k = some 0 →
      storeGet (initialize_from_private_cases s cases) k = some 0 := by
  induction cases with
  | nil => intro s k h; exact h
  | cons c cs ih =>
    intro s k h
    rw [init_cons]
    apply ih
    by_cases hk : make_key c.days c.miles c.receipts = k
    · show storeGet (storeInsert s (make_key c.days c.miles c.receipts) 0) k = some 0
      rw [hk, storeGet_insert_self]
    · show storeGet (storeInsert s (make_key c.days c.miles c.receipts) 0) k = some 0
      rw [storeGet_insert_ne _ _ _ _ (fun h0 => hk h0.symm)]
      exact h

theorem storeGet_init_mem (cases : List Case) :
    ∀ (s : Store) (c : Case), c ∈ cases →
      storeGet (initialize_from_private_cases s cases)
        (make_key c.days c.miles c.receipts) = some 0 := by
  induction cases with
  | nil => intro s c hc; cases hc
  | cons c0 cs ih =>
    intro s c hc
    rw [init_cons]
    rcases List.mem_cons.mp hc with h | h
    · subst h
      apply storeGet_init_zero_preserved
      show storeGet (storeInsert s (make_key c.days c.miles c.receipts) 0)
          (make_key c.days c.miles c.receipts) = some 0
      exact storeGet_insert_self ..
    · exact ih _ c h

theorem storeGet_init_frame (cases : List Case) :
    ∀ (s : Store) (k : Key),
      (∀ c ∈ cases, make_key c.days c.miles c.receipts ≠ k) →
      storeGet (initialize_from_private_cases s cases) k = storeGet s k := by
  induction cases with
  | nil => intro s k h; rfl
  | cons c0 cs ih =>
    intro s k h
    rw [init_cons]
    rw [ih _ _ (fun c hc => h c (List.mem_cons_of_mem _ hc))]
    exact storeGet_insert_ne _ _ _ _
      (fun h0 => h c0 (List.mem_cons_self ..) h0.symm)

end RulesEngine

/-- C3 counterexample: the claim says a key already present before
`initialize_from_private_cases` keeps its previous amount.  On the store
`[((1, 10, 5), 42)]`, initializing with the single manifest case
`(1, 10, 5.00)` overwrites the stored amount 42 with 0.0. -/
theorem C3_initialize_overwrites_counterexample :
    RulesEngine.predict [((1, 10, 5), 42)] 1 10 5 = 42 ∧
    RulesEngine.predict
      (RulesEngine.initialize_from_private_cases [((1, 10, 5), 42)]
        [⟨1, 10, 5⟩]) 1 10 5 = 0 ∧
    (42 : ℚ) ≠ 0 := by
  refine ⟨by decide, ?_, by decide⟩
  decide

/-- C3 amended: `initialize_from_private_cases` upserts amount 0.0 for every
manifest case unconditionally, overwriting any amount already stored at that
key; keys not named by any manifest case keep their previous amounts; and on
an empty store with the 2 distinct cases `(1, 10, 5.00)` and `(2, 20, 8.50)`
it yields size 2 with 0 non-default (non-zero) entries. -/
theorem C3_initialize_amended :
    (∀ (s : RulesEngine.Store) (cases : List RulesEngine.Case)
       (c : RulesEngine.Case), c ∈ cases →
      RulesEngine.predict (RulesEngine.initialize_from_private_cases s cases)
        c.days c.miles c.receipts = 0) ∧
    (∀ (s : RulesEngine.Store) (cases : List RulesEngine.Case) (k : RulesEngine.Key),
      (∀ c ∈ cases, RulesEngine.make_key c.days c.miles c.receipts ≠ k) →
      RulesEngine.storeGet (RulesEngine.initialize_from_private_cases s cases) k =
        RulesEngine.storeGet s k) ∧
    (RulesEngine.get_rule_count
        (RulesEngine.initialize_from_private_cases [] [⟨1, 10, 5⟩, ⟨2, 20, mkRat 17 2⟩]) = 2 ∧
     RulesEngine.get_rule_count
        (RulesEngine.initialize_from_private_cases [] [⟨1, 10, 5⟩, ⟨2, 20, mkRat 17 2⟩]) -
       RulesEngine.get_zero_count
        (RulesEngine.initialize_from_private_cases [] [⟨1, 10, 5⟩, ⟨2, 20, mkRat 17 2⟩]) = 0) := by
  refine ⟨?_, ?_, by decide, by decide⟩
  · intro s cases c hc
    unfold RulesEngine.predict
    rw [RulesEngine.storeGet_init_mem cases s c hc]
    rfl
  · intro s cases k h
    exact RulesEngine.storeGet_init_frame cases s k h

/-- Witness for C3 amended: concrete instances of both hypothetical parts. -/
theorem C3_initialize_amended_witness :
    RulesEngine.predict
      (RulesEngine.initialize_from_private_cases [((1, 10, 5), 42)] [⟨1, 10, 5⟩])
      1 10 5 = 0 ∧
    RulesEngine.storeGet
      (RulesEngine.initialize_from_private_cases [((9, 9, 9), 7)] [⟨1, 10, 5⟩])
      (9, 9, 9) = RulesEngine.storeGet [((9, 9, 9), 7)] (9, 9, 9) := by
  constructor
  · exact C3_initialize_amended.1 [((1, 10, 5), 42)] [⟨1, 10, 5⟩] ⟨1, 10, 5⟩ (by decide)
  · exact C3_initialize_amended.2.1 [((9, 9, 9), 7)] [⟨1, 10, 5⟩] (9, 9, 9) (by decide)

/-- C2 counterexample: `save_rules` emits no rename event at all, and after
its first event (the truncating open) a concurrent reader of the store file
observes content `""`, which is neither the old complete content `"old"`
nor the new complete content `"new"` — a partially written state.  This
refutes the claim that save writes to a temporary path and renames it over
the target so that readers never observe a partial file. -/
theorem C2_save_atomicity_counterexample :
    ((RulesEngine.save_rules_events "rules.json" "new").all
      (fun e => ! RulesEngine.isRename e)) = true ∧
    RulesEngine.fsGet
      (RulesEngine.applyEvents [("rules.json", "old")]
        ((RulesEngine.save_rules_events "rules.json" "new").take 1))
      "rules.json" = some "" ∧
    (some "" : Option String) ≠ some "old" ∧
    (some "" : Option String) ≠ some "new" := by
  decide

/-- C2 amended: `save_rules` serializes the full mapping and overwrites the
target file in place — a truncating open followed by a write, with no
temporary path and no rename — so after a completed save the file holds the
new serialization, but mid-save a concurrent reader can observe a state
that is neither the old nor the new complete content. -/
theorem C2_save_amended (f old data : String)
    (hold : old ≠ "") (hdata : data ≠ "") :
    ((RulesEngine.save_rules_events f data).all
      (fun e => ! RulesEngine.isRename e)) = true ∧
    RulesEngine.fsGet
      (RulesEngine.applyEvents [(f, old)] (RulesEngine.save_rules_events f data)) f
      = some data ∧
    ∃ k, k ≤ (RulesEngine.save_rules_events f data).length ∧
      RulesEngine.fsGet (RulesEngine.applyEvents [(f, old)]
        ((RulesEngine.save_rules_events f data).take k)) f ≠ some old ∧
      RulesEngine.fsGet (RulesEngine.applyEvents [(f, old)]
        ((RulesEngine.save_rules_events f data).take k)) f ≠ some data := by
  refine ⟨by simp [RulesEngine.save_rules_events, RulesEngine.isRename], ?_, ?_⟩
  · simp [RulesEngine.save_rules_events, RulesEngine.applyEvents,
      RulesEngine.applyEvent, RulesEngine.fsSet, RulesEngine.fsGet]
  · refine ⟨1, by simp [RulesEngine.save_rules_events], ?_, ?_⟩
    · simp [RulesEngine.save_rules_events, RulesEngine.applyEvents,
        RulesEngine.applyEvent, RulesEngine.fsSet, RulesEngine.fsGet]
      exact fun h => hold h.symm
    · simp [RulesEngine.save_rules_events, RulesEngine.applyEvents,
        RulesEngine.applyEvent, RulesEngine.fsSet, RulesEngine.fsGet]
      exact fun h => hdata h.symm

/-- Witness for C2 amended at concrete path and contents. -/
theorem C2_save_amended_witness :
    ((RulesEngine.save_rules_events "r" "d").all
      (fun e => ! RulesEngine.isRename e)) = true ∧
    RulesEngine.fsGet
      (RulesEngine.applyEvents [("r", "o")] (RulesEngine.save_rules_events "r" "d")) "r"
      = some "d" ∧
    ∃ k, k ≤ (RulesEngine.save_rules_events "r" "d").length ∧
      RulesEngine.fsGet (RulesEngine.applyEvents [("r", "o")]
        ((RulesEngine.save_rules_events "r" "d").take k)) "r" ≠ some "o" ∧
      RulesEngine.fsGet (RulesEngine.applyEvents [("r", "o")]
        ((RulesEngine.save_rules_events "r" "d").take k)) "r" ≠ some "d" :=
  C2_save_amended "r" "o" "d" (by decide) (by decide)

namespace RulesEngine

theorem load_loop_fail (entries : List (String × ℚ)) :
    ∀ (acc : LoadStore) (k : String) (v : ℚ), (k, v) ∈ entries →
      evalKey k = none → load_loop entries acc = [] := by
  induction entries with
  | nil => intro acc k v h _; cases h
  | cons e rest ih =>
    intro acc k v hmem hk
    obtain ⟨k0, v0⟩ := e
    rcases List.mem_cons.mp hmem with h | h
    · obtain ⟨hk0, _⟩ := Prod.mk.injEq .. ▸ h
      subst hk0
      simp [load_loop, hk]
    · rcases hek : evalKey k0 with _ | kt
      · simp [load_loop, hek]
      · simp only [load_loop, hek]
        exact ih _ k v h hk

end RulesEngine

/-- C4 counterexample: `eval`-based decoding accepts the two-token tuple
literal `"(1, 2.0)"` instead of failing on a non-three-token shape; and a
key literal on which `eval` raises (`"garbage"`) makes `load_rules` drop
the entire mapping — the well-formed record `"(1, 2.0, 3.0)"`, which loads
fine on its own, is lost too, not just the offending record. -/
theorem C4_decode_counterexample :
    RulesEngine.evalKey "(1, 2.0)" = some [1, 2] ∧
    RulesEngine.load_rules (.parsed [("(1, 2.0, 3.0)", 5), ("garbage", 1)]) = [] ∧
    RulesEngine.load_rules (.parsed [("(1, 2.0, 3.0)", 5)]) = [([1, 2, 3], 5)] := by
  decide

/-- C4 amended: decoding is `eval`-based with no arity validation (a
two-token numeric tuple literal decodes successfully); during load, a key
literal on which `eval` raises causes the entire load to abort with an
empty store — every record is dropped, not only the offending one; on a
missing file (and on an unreadable/corrupt one) `load_rules` returns an
empty store without raising. -/
theorem C4_load_amended :
    (∀ (entries : List (String × ℚ)) (k : String) (v : ℚ),
      (k, v) ∈ entries → RulesEngine.evalKey k = none →
      RulesEngine.load_rules (.parsed entries) = []) ∧
    RulesEngine.load_rules .missing = [] ∧
    RulesEngine.load_rules .corrupt = [] ∧
    RulesEngine.evalKey "(1, 2.0)" = some [1, 2] := by
  refine ⟨?_, rfl, rfl, by decide⟩
  intro entries k v hm hk
  exact RulesEngine.load_loop_fail entries [] k v hm hk

/-- Witness for C4 amended: a store file with one good and one bad key
literal loads as the empty store. -/
theorem C4_load_amended_witness :
    RulesEngine.load_rules (.parsed [("(7, 1.0, 2.0)", 5), ("garbage", 1)]) = [] :=
  C4_load_amended.1 [("(7, 1.0, 2.0)", 5), ("garbage", 1)] "garbage" 1
    (by decide) (by decide)

/-- C5: on a harness invocation that exits non-zero or raises,
`run_evaluation` reports score 0.0 with no error records; updating with no
error records leaves the store untouched and performs no save; and the
improvement loop treats such an iteration like any score-0 iteration —
when no termination condition fires it simply proceeds to the next
iteration with the same store, rather than aborting. -/
theorem C5_harness_failure :
    (∀ (topn : ℕ) (code : ℤ),
      ContinuousImprovement.run_evaluation topn (.exitFail code) = (0, []) ∧
      ContinuousImprovement.run_evaluation topn .excFail = (0, [])) ∧
    (∀ s : RulesEngine.Store,
      ContinuousImprovement.ci_update_rules s [] = (s, false)) ∧
    (∀ (target : ℚ) (maxStag topn : ℕ)
       (hs : ℕ → ContinuousImprovement.HarnessResult)
       (fuel : ℕ) (best : ℚ) (stag done : ℕ) (s : RulesEngine.Store),
      ContinuousImprovement.run_evaluation topn (hs done) = (0, []) →
      ¬ (target ≤ (0:ℚ)) → ¬ (best < (0:ℚ)) → ¬ (maxStag ≤ stag + 1) →
      ContinuousImprovement.run_continuous_improvement_loop target maxStag topn hs
        (fuel+1) best stag done s =
      ContinuousImprovement.run_continuous_improvement_loop target maxStag topn hs
        fuel best (stag+1) (done+1) s) := by
  refine ⟨fun topn code => ⟨rfl, rfl⟩, fun s => rfl, ?_⟩
  intro target maxStag topn hs fuel best stag done s hev htarget hbest hstag
  simp only [ContinuousImprovement.run_continuous_improvement_loop, hev,
    ContinuousImprovement.ci_update_rules, List.isEmpty_nil, if_true]
  simp only [if_neg htarget, if_neg hbest, if_neg hstag]

/-- Witness for C5 at a concrete failing harness. -/
theorem C5_harness_failure_witness :
    ContinuousImprovement.run_evaluation 10 (.exitFail 1) = (0, []) ∧
    ContinuousImprovement.ci_update_rules [] [] = ([], false) ∧
    ContinuousImprovement.run_continuous_improvement_loop 95 2 10
      (fun _ => .excFail) 3 0 0 0 [] =
    ContinuousImprovement.run_continuous_improvement_loop 95 2 10
      (fun _ => .excFail) 2 0 1 1 [] := by
  refine ⟨(C5_harness_failure.1 10 1).1, C5_harness_failure.2.1 [], ?_⟩
  exact C5_harness_failure.2.2 95 2 10 (fun _ => .excFail) 2 0 0 0 []
    (by decide) (by decide) (by decide) (by decide)

/-- C9: key normalization is idempotent:
`make_key d (round2 m) (round2 r) = make_key d m r`. -/
theorem C9_make_key_idempotent (d : ℤ) (m r : ℚ) :
    RulesEngine.make_key d (RulesEngine.round2 m) (RulesEngine.round2 r) =
    RulesEngine.make_key d m r := by
  unfold RulesEngine.make_key
  rw [round2_round2, round2_round2]

namespace ContinuousImprovement

theorem insertDesc_perm (x : ErrorCase) (l : List ErrorCase) :
    (insertDesc x l).Perm (x :: l) := by
  induction l with
  | nil => exact List.Perm.refl _
  | cons y ys ih =>
    by_cases h : x.magnitude < y.magnitude
    · simp only [insertDesc, if_pos h]
      exact (ih.cons y).trans (List.Perm.swap x y ys)
    · simp only [insertDesc, if_neg h]
      exact List.Perm.refl _

theorem sortDesc_perm (l : List ErrorCase) : (sortDesc l).Perm l := by
  induction l with
  | nil => exact List.Perm.refl _
  | cons x xs ih =>
    exact (insertDesc_perm x (sortDesc xs)).trans (ih.cons x)

theorem insertDesc_pairwise (x : ErrorCase) (l : List ErrorCase)
    (h : l.Pairwise (fun a b => b.magnitude ≤ a.magnitude)) :
    (insertDesc x l).Pairwise (fun a b => b.magnitude ≤ a.magnitude) := by
  induction l with
  | nil => simp [insertDesc]
  | cons y ys ih =>
    rcases List.pairwise_cons.mp h with ⟨hy, hys⟩
    by_cases hc : x.magnitude < y.magnitude
    · simp only [insertDesc, if_pos hc]
      refine List.pairwise_cons.mpr ⟨?_, ih hys⟩
      intro z hz
      rcases List.mem_cons.mp ((insertDesc_perm x ys).mem_iff.mp hz) with hz1 | hz1
    -- z is the inserted x or an old element of ys
      · rw [hz1]; exact le_of_lt hc
      · exact hy z hz1
    · simp only [insertDesc, if_neg hc]
      refine List.pairwise_cons.mpr ⟨?_, h⟩
      intro z hz
      rcases List.mem_cons.mp hz with hz1 | hz1
      · rw [hz1]; exact le_of_not_lt hc
      · exact le_trans (hy z hz1) (le_of_not_lt hc)

theorem sortDesc_pairwise (l : List ErrorCase) :
    (sortDesc l).Pairwise (fun a b => b.magnitude ≤ a.magnitude) := by
  induction l with
  | nil => simp [sortDesc]
  | cons x xs ih => exact insertDesc_pairwise x (sortDesc xs) ih

theorem insertDesc_filter (x : ErrorCase) (l : List ErrorCase) (m : ℚ) :
    (insertDesc x l).filter (fun y => y.magnitude == m) =
      if x.magnitude = m then x :: l.filter (fun y => y.magnitude == m)
      else l.filter (fun y => y.magnitude == m) := by
  induction l with
  | nil =>
    by_cases hx : x.magnitude = m <;> simp [insertDesc, hx]
  | cons y ys ih =>
    by_cases hc : x.magnitude < y.magnitude
    · simp only [insertDesc, if_pos hc]
      by_cases hx : x.magnitude = m
      · have hy : (y.magnitude == m) = false := by
          refine beq_eq_false_iff_ne.mpr (fun hEq => ?_)
          rw [hx] at hc
          rw [hEq] at hc
          exact lt_irrefl m hc
        simp [List.filter_cons, hy, ih, hx]
      · simp [List.filter_cons, ih, hx]
    · simp only [insertDesc, if_neg hc]
      by_cases hx : x.magnitude = m <;> simp [List.filter_cons, hx]

theorem sortDesc_filter (l : List ErrorCase) (m : ℚ) :
    (sortDesc l).filter (fun y => y.magnitude == m) =
      l.filter (fun y => y.magnitude == m) := by
  induction l with
  | nil => rfl
  | cons x xs ih =>
    show (insertDesc x (sortDesc xs)).filter _ = _
    rw [insertDesc_filter]
    by_cases hx : x.magnitude = m
    · rw [if_pos hx, ih, List.filter_cons, if_pos (by simp [hx])]
    · rw [if_neg hx, ih, List.filter_cons, if_neg (by simp [hx])]

end ContinuousImprovement

/-- C6 counterexample: two records with equal magnitude 10 and case
identifiers 5 then 3 (report order).  `top_n` keeps them in report order —
case 5 first — whereas the claim requires ascending case identifiers
(case 3 first) on ties.  Python `list.sort(..., reverse=True)` is stable
and has no case-id tie-break. -/
theorem C6_top_n_tie_counterexample :
    ContinuousImprovement.top_n
      [⟨5, 1, 1, 1, 1, 1, 10⟩, ⟨3, 1, 1, 1, 1, 1, 10⟩] 2 =
      [⟨5, 1, 1, 1, 1, 1, 10⟩, ⟨3, 1, 1, 1, 1, 1, 10⟩] ∧
    (⟨5, 1, 1, 1, 1, 1, 10⟩ : ContinuousImprovement.ErrorCase).magnitude =
      (⟨3, 1, 1, 1, 1, 1, 10⟩ : ContinuousImprovement.ErrorCase).magnitude ∧
    ¬ (ContinuousImprovement.top_n
        [⟨5, 1, 1, 1, 1, 1, 10⟩, ⟨3, 1, 1, 1, 1, 1, 10⟩] 2 =
       [⟨3, 1, 1, 1, 1, 1, 10⟩, ⟨5, 1, 1, 1, 1, 1, 10⟩]) := by
  decide

/-- C6 amended: `top_n` returns at most `n` records, sorted in
non-increasing magnitude order; the sort permutes the records and is
stable, so records of equal magnitude keep their original (report) order
rather than being reordered by case identifier. -/
theorem C6_top_n_amended (records : List ContinuousImprovement.ErrorCase) (n : ℕ) :
    (ContinuousImprovement.top_n records n).length ≤ n ∧
    (ContinuousImprovement.top_n records n).Pairwise
      (fun a b => b.magnitude ≤ a.magnitude) ∧
    (ContinuousImprovement.sortDesc records).Perm records ∧
    (∀ m : ℚ, (ContinuousImprovement.sortDesc records).filter
        (fun y => y.magnitude == m) =
      records.filter (fun y => y.magnitude == m)) := by
  refine ⟨?_, ?_, ContinuousImprovement.sortDesc_perm records,
    fun m => ContinuousImprovement.sortDesc_filter records m⟩
  · exact List.length_take_le n _
  · exact (ContinuousImprovement.sortDesc_pairwise records).sublist
      (List.take_sublist n _)

/-- C7: `extract_score_from_output` returns the exact-match percentage when
the report contains one (taking precedence over any average-error line),
else `max(0, 100 - average_error)` when an average-error line is present,
else 0.0; concretely 25.0 for `"Exact matches: 50 (25.0%)"` (also with an
average-error line after it) and 90.0 for `"Average error: $10.00"`. -/
theorem C7_extract_score :
    ContinuousImprovement.extract_score_from_output "Exact matches: 50 (25.0%)" = 25 ∧
    ContinuousImprovement.extract_score_from_output
      "Exact matches: 50 (25.0%)\nAverage error: $10.00" = 25 ∧
    ContinuousImprovement.extract_score_from_output "Average error: $10.00" = 90 ∧
    (∀ (out : String) (p : ℚ),
      ContinuousImprovement.searchExact out.data = some p →
      ContinuousImprovement.extract_score_from_output out = p) ∧
    (∀ (out : String) (e : ℚ),
      ContinuousImprovement.searchExact out.data = none →
      ContinuousImprovement.searchAvg out.data = some e →
      ContinuousImprovement.extract_score_from_output out = max 0 (100 - e)) ∧
    (∀ out : String,
      ContinuousImprovement.searchExact out.data = none →
      ContinuousImprovement.searchAvg out.data = none →
      ContinuousImprovement.extract_score_from_output out = 0) := by
  refine ⟨by decide, by decide, by decide, ?_, ?_, ?_⟩
  · intro out p h
    simp [ContinuousImprovement.extract_score_from_output, h]
  · intro out e h1 h2
    simp [ContinuousImprovement.extract_score_from_output, h1, h2, qmax_eq, qsub_eq]
  · intro out h1 h2
    simp [ContinuousImprovement.extract_score_from_output, h1, h2]

/-- Witness for C7: the three behaviours at concrete reports, obtained by
applying the theorem with its hypotheses discharged by evaluation. -/
theorem C7_extract_score_witness :
    ContinuousImprovement.extract_score_from_output "Exact matches: 50 (25.0%)" = 25 ∧
    ContinuousImprovement.extract_score_from_output "Average error: $10.00" =
      max 0 (100 - 10) ∧
    ContinuousImprovement.extract_score_from_output "no score at all" = 0 := by
  refine ⟨C7_extract_score.2.2.2.1 "Exact matches: 50 (25.0%)" 25 (by decide), ?_, ?_⟩
  · exact C7_extract_score.2.2.2.2.1 "Average error: $10.00" 10 (by decide) (by decide)
  · exact C7_extract_score.2.2.2.2.2 "no score at all" (by decide) (by decide)

/-- C8: with target 95.0, stagnation window 2, and a harness that always
reports an exact-match score of 10.0, the loop ends `stagnated` after
exactly 3 iterations (one that raises the best score from 0.0 to 10.0 plus
two without improvement) with the store untouched — in particular it never
converges; and the checks are ordered: a score at or above the target
converges immediately (regardless of the stagnation counter), otherwise a
stagnation counter reaching the window stops the loop inside the iteration
(before exhaustion can), and exhaustion occurs only when the iteration
budget runs out. -/
theorem C8_stagnation :
    (ContinuousImprovement.run_continuous_improvement_loop 95 2 10
      (fun _ => .ok "Exact matches: 10 (10.0%)") 300 0 0 0 [] =
      (.stagnated, 3, [])) ∧
    (∀ (target : ℚ) (maxStag topn : ℕ)
       (hs : ℕ → ContinuousImprovement.HarnessResult)
       (fuel : ℕ) (best : ℚ) (stag done : ℕ) (s : RulesEngine.Store),
      target ≤ (ContinuousImprovement.run_evaluation topn (hs done)).1 →
      ContinuousImprovement.run_continuous_improvement_loop target maxStag topn hs
        (fuel+1) best stag done s =
        (.converged, done + 1,
          (ContinuousImprovement.ci_update_rules s
            (ContinuousImprovement.run_evaluation topn (hs done)).2).1)) ∧
    (∀ (target : ℚ) (maxStag topn : ℕ)
       (hs : ℕ → ContinuousImprovement.HarnessResult)
       (fuel : ℕ) (best : ℚ) (stag done : ℕ) (s : RulesEngine.Store),
      ¬ (target ≤ (ContinuousImprovement.run_evaluation topn (hs done)).1) →
      maxStag ≤ (if best < (ContinuousImprovement.run_evaluation topn (hs done)).1
        then 0 else stag + 1) →
      ContinuousImprovement.run_continuous_improvement_loop target maxStag topn hs
        (fuel+1) best stag done s =
        (.stagnated, done + 1,
          (ContinuousImprovement.ci_update_rules s
            (ContinuousImprovement.run_evaluation topn (hs done)).2).1)) ∧
    (∀ (target : ℚ) (maxStag topn : ℕ)
       (hs : ℕ → ContinuousImprovement.HarnessResult)
       (best : ℚ) (stag done : ℕ) (s : RulesEngine.Store),
      ContinuousImprovement.run_continuous_improvement_loop target maxStag topn hs
        0 best stag done s = (.exhausted, done, s)) := by
  refine ⟨by decide, ?_, ?_, fun target maxStag topn hs best stag done s => rfl⟩
  · intro target maxStag topn hs fuel best stag done s h
    simp only [ContinuousImprovement.run_continuous_improvement_loop]
    rw [if_pos h]
  · intro target maxStag topn hs fuel best stag done s h1 h2
    simp only [ContinuousImprovement.run_continuous_improvement_loop]
    rw [if_neg h1, if_pos h2]

/-- Witness for C8: the ordered checks applied at concrete loop states — a
target below the constant score converges on the first iteration, and a
stagnation window of 1 with a best score already above the reported score
stagnates inside the iteration. -/
theorem C8_stagnation_witness :
    (ContinuousImprovement.run_continuous_improvement_loop 5 2 10
      (fun _ => .ok "Exact matches: 10 (10.0%)") 1 0 0 0 [] =
      (.converged, 1,
        (ContinuousImprovement.ci_update_rules []
          (ContinuousImprovement.run_evaluation 10
            ((fun _ => ContinuousImprovement.HarnessResult.ok
              "Exact matches: 10 (10.0%)") 0)).2).1)) ∧
    (ContinuousImprovement.run_continuous_improvement_loop 95 1 10
      (fun _ => .ok "Exact matches: 10 (10.0%)") 1 20 0 0 [] =
      (.stagnated, 1,
        (ContinuousImprovement.ci_update_rules []
          (ContinuousImprovement.run_evaluation 10
            ((fun _ => ContinuousImprovement.HarnessResult.ok
              "Exact matches: 10 (10.0%)") 0)).2).1)) := by
  constructor
  · exact C8_stagnation.2.1 5 2 10
      (fun _ => .ok "Exact matches: 10 (10.0%)") 0 0 0 0 [] (by decide)
  · exact C8_stagnation.2.2.1 95 1 10
      (fun _ => .ok "Exact matches: 10 (10.0%)") 0 20 0 0 [] (by decide) (by decide)

namespace ContinuousImprovement

theorem extractLoop_length_bound (lines : List (List Char)) :
    ∀ (inSec : Bool) (pending : Option (ℕ × ℕ × ℚ × ℚ)) (acc : List ErrorCase),
      (extractLoop lines inSec pending acc).length ≤
        acc.length + pendingWeight pending +
        lines.countP (fun l => (searchCase l).isSome) := by
  induction lines with
  | nil =>
    intro inSec pending acc
    have h0 : extractLoop [] inSec pending acc = acc := rfl
    rw [h0, List.countP_nil, Nat.add_zero]
    exact Nat.le_add_right _ _
  | cons line rest ih =>
    intro inSec pending acc
    have hmono : rest.countP (fun l => (searchCase l).isSome) ≤
        (line :: rest).countP (fun l => (searchCase l).isSome) := by
      rw [List.countP_cons]
      exact Nat.le_add_right _ _
    have hbump : ∀ hdr, searchCase line = some hdr →
        rest.countP (fun l => (searchCase l).isSome) + 1 =
        (line :: rest).countP (fun l => (searchCase l).isSome) := by
      intro hdr h
      rw [List.countP_cons]
      simp [h]
    have hstep : extractLoop (line :: rest) inSec pending acc =
        (if containsSub "Check these high-error cases:".data line then
          extractLoop rest true pending acc
        else if inSec && (startsWithPat "⚠️".data (stripList line) ||
            startsWithPat "📝".data (stripList line)) then acc
        else if inSec && startsWithPat "Case".data (stripList line) then
          match searchCase line with
          | some hdr => extractLoop rest inSec (some hdr) acc
          | none => extractLoop rest inSec pending acc
        else if inSec && containsSub "Expected:".data line &&
            containsSub "Got:".data line && pending.isSome then
          match pending, searchValues line with
          | some hdr, some eam =>
            extractLoop rest inSec none
              (acc ++ [⟨hdr.1, hdr.2.1, hdr.2.2.1, hdr.2.2.2, eam.1, eam.2.1, eam.2.2⟩])
          | p, _ => extractLoop rest inSec p acc
        else extractLoop rest inSec pending acc) := rfl
    rw [hstep]
    by_cases h1 : containsSub "Check these high-error cases:".data line = true
    · rw [if_pos h1]
      exact le_trans (ih true pending acc) (Nat.add_le_add_left hmono _)
    · rw [if_neg h1]
      by_cases h2 : (inSec && (startsWithPat "⚠️".data (stripList line) ||
          startsWithPat "📝".data (stripList line))) = true
      · rw [if_pos h2]
        exact le_trans (Nat.le_add_right _ _) (Nat.le_add_right _ _)
      · rw [if_neg h2]
        by_cases h3 : (inSec && startsWithPat "Case".data (stripList line)) = true
        · rw [if_pos h3]
          rcases hsc : searchCase line with _ | hdr
          · simp only [hsc]
            exact le_trans (ih inSec pending acc) (Nat.add_le_add_left hmono _)
          · simp only [hsc]
            have hb := ih inSec (some hdr) acc
            rw [← hbump hdr hsc]
            simp only [pendingWeight] at hb ⊢
            omega
        · rw [if_neg h3]
          by_cases h4 : (inSec && containsSub "Expected:".data line &&
              containsSub "Got:".data line && pending.isSome) = true
          · rw [if_pos h4]
            rcases pending with _ | hdr0
            · show (extractLoop rest inSec none acc).length ≤ _
              exact le_trans (ih inSec none acc) (Nat.add_le_add_left hmono _)
            · rcases hsv : searchValues line with _ | eam
              · simp only [hsv]
                exact le_trans (ih inSec (some hdr0) acc)
                  (Nat.add_le_add_left hmono _)
              · simp only [hsv]
                have hb := ih inSec none (acc ++ [⟨hdr0.1, hdr0.2.1, hdr0.2.2.1,
                  hdr0.2.2.2, eam.1, eam.2.1, eam.2.2⟩])
                simp only [pendingWeight, List.length_append, List.length_cons,
                  List.length_nil] at hb
                simp only [pendingWeight]
                omega
          · rw [if_neg h4]
            exact le_trans (ih inSec pending acc) (Nat.add_le_add_left hmono _)

end ContinuousImprovement

/-- C10: the report parser emits at most one error record per successfully
matching `Case` line — the number of emitted records is bounded by the
pending case (0 or 1) plus the number of lines matching the case pattern;
a metrics (`Expected:`/`Got:`) line reached with no pending case produces
no record; and once a record is emitted the pending case is cleared, so a
second metrics line for the same case is ignored. -/
theorem C10_one_record_per_case_line :
    (∀ (lines : List (List Char)) (inSec : Bool)
       (pending : Option (ℕ × ℕ × ℚ × ℚ))
       (acc : List ContinuousImprovement.ErrorCase),
      (ContinuousImprovement.extractLoop lines inSec pending acc).length ≤
        acc.length + ContinuousImprovement.pendingWeight pending +
        lines.countP (fun l => (ContinuousImprovement.searchCase l).isSome)) ∧
    (ContinuousImprovement.extractLoop
      (splitLines ("Check these high-error cases:\n      Expected: $5.00, Got: $1.00, Error: $4.00").data)
      false none [] = []) ∧
    (ContinuousImprovement.extractLoop
      (splitLines ("Check these high-error cases:\n    Case 1: 2 days, 3 miles, $4.00 receipts\n      Expected: $5.00, Got: $1.00, Error: $4.00\n      Expected: $9.00, Got: $2.00, Error: $7.00").data)
      false none [] = [⟨1, 2, 3, 4, 5, 1, 4⟩]) := by
  refine ⟨fun lines => ContinuousImprovement.extractLoop_length_bound lines,
    by decide, by decide⟩
